import Mathlib
/-!
Shallow embedding of the yaad timing-wheel dispatcher core
(src/times.rs, src/job.rs, src/spoke.rs, src/hub.rs).

The wall clock (times::current_time_ms) is threaded through every
operation as an explicit `now : Nat` argument.  Rust's
HashMap is modelled as an association list, BinaryHeap as a plain
list with extract-min (the heap is a max-heap over the reversed
trigger ordering, i.e. pop yields an element of least trigger time,
ties resolved arbitrarily), and BTreeMap as a list kept sorted
strictly ascending in the key type's own comparison function.
-/
/-! Association-list model of std HashMap. -/
/-! The Spoke: a time-bounded container of jobs (src/spoke.rs). -/
/-! The Hub: an ordered map of Spokes plus the past Spoke (src/hub.rs). -/
/-! Concrete fixtures used by the claim evaluations below. -/

/-- times::floor_ms_from_epoch - note the hard-coded divisor 10. -/
def floor_ms_from_epoch (ms : Nat) : Nat :=
  (ms / 10) * 10

/-- Modelled from the spec: floor_to_bucket(t, width) = (t / width) * width,
the bucket computation the spec requires (flooring by the configured width). -/
def floor_to_bucket (t width : Nat) : Nat :=
  (t / width) * width

/-- job::JobMetadata - internal id, external id, trigger time (ms). -/
structure JobMetadata where
  internal_id : Nat
  external_id : Nat
  trigger_at_ms : Nat
deriving DecidableEq, Repr

/-- job::JobBody - opaque payload. -/
structure JobBody where
  body : String
deriving DecidableEq, Repr

/-- job::Job - metadata plus body. -/
structure Job where
  job_metadata : JobMetadata
  body : JobBody
deriving DecidableEq, Repr

/-- JobMetadata::is_ready - trigger_at_ms is at or before the clock. -/
def JobMetadata.is_ready (now : Nat) (jm : JobMetadata) : Bool :=
  jm.trigger_at_ms ≤ now

/-- PartialEq for JobMetadata: if either external id is 0 compare internal
ids, otherwise equal when internal ids or external ids coincide. -/
def JobMetadata.eqb (a b : JobMetadata) : Bool :=
  if a.external_id == 0 || b.external_id == 0 then
    a.internal_id == b.internal_id
  else
    a.internal_id == b.internal_id || a.external_id == b.external_id

/-- PartialEq for Job delegates to the metadata equality. -/
def Job.eqb (a b : Job) : Bool :=
  JobMetadata.eqb a.job_metadata b.job_metadata

/-- Ord for JobMetadata: comparison on trigger time, reversed (max-heap
over this order is a min-heap on trigger time). -/
def JobMetadata.cmp (a b : JobMetadata) : Ordering :=
  (compare a.trigger_at_ms b.trigger_at_ms).swap

/-- spoke::BoundingSpokeTime - half-open interval of a Spoke. -/
structure BoundingSpokeTime where
  start_time_ms : Nat
  end_time_ms : Nat
deriving DecidableEq, Repr

/-- BoundingSpokeTime::new. -/
def BoundingSpokeTime.new (s e : Nat) : BoundingSpokeTime := ⟨s, e⟩

/-- Ord for BoundingSpokeTime: start then end, then the whole comparison
is reversed (spoke.rs line 286). -/
def BoundingSpokeTime.cmp (a b : BoundingSpokeTime) : Ordering :=
  (Ordering.then (compare a.start_time_ms b.start_time_ms)
    (compare a.end_time_ms b.end_time_ms)).swap

/-- BoundingSpokeTime::is_ready - start ≤ now < end. -/
def BoundingSpokeTime.is_ready (now : Nat) (bst : BoundingSpokeTime) : Bool :=
  bst.start_time_ms ≤ now && now < bst.end_time_ms

/-- BoundingSpokeTime::is_expired - end < now. -/
def BoundingSpokeTime.is_expired (now : Nat) (bst : BoundingSpokeTime) : Bool :=
  bst.end_time_ms < now

/-- HashMap lookup. -/
def lookupA {α : Type} : List (Nat × α) → Nat → Option α
  | [], _ => none
  | (k', v) :: rest, k => if k' = k then some v else lookupA rest k

/-- HashMap insert: replace the binding if the key exists, else add it. -/
def insertA {α : Type} : List (Nat × α) → Nat → α → List (Nat × α)
  | [], k, v => [(k, v)]
  | (k', v') :: rest, k, v =>
    if k' = k then (k, v) :: rest else (k', v') :: insertA rest k v

/-- HashMap remove: drop the first binding of the key, returning its value. -/
def removeA {α : Type} : List (Nat × α) → Nat → Option α × List (Nat × α)
  | [], _ => (none, [])
  | (k', v') :: rest, k =>
    if k' = k then (some v', rest)
    else
      let r := removeA rest k
      (r.1, (k', v') :: r.2)

/-- Keys of an association list. -/
def keysA {α : Type} (m : List (Nat × α)) : List Nat :=
  m.map Prod.fst

/-- spoke::Spoke - bounds, external-id index, body index keyed by internal
id, and the metadata heap (modelled as a list popped by least trigger). -/
structure Spoke where
  bst : BoundingSpokeTime
  job_eid_map : List (Nat × Nat)
  job_iid_map : List (Nat × JobBody)
  job_list : List JobMetadata
deriving DecidableEq, Repr

/-- Spoke::new_from_bounds - empty spoke with the given bounds. -/
def Spoke.new_from_bounds (bst : BoundingSpokeTime) : Spoke :=
  ⟨bst, [], [], []⟩

/-- Spoke::new - interval is half-open of the given width. -/
def Spoke.new (start_time_ms duration_ms : Nat) : Spoke :=
  Spoke.new_from_bounds ⟨start_time_ms, start_time_ms + duration_ms⟩

/-- Spoke::is_ready delegates to the bounds. -/
def Spoke.is_ready (now : Nat) (s : Spoke) : Bool :=
  BoundingSpokeTime.is_ready now s.bst

/-- Spoke::is_expired delegates to the bounds. -/
def Spoke.is_expired (now : Nat) (s : Spoke) : Bool :=
  BoundingSpokeTime.is_expired now s.bst

/-- Spoke::pending_job_len - the heap length. -/
def Spoke.pending_job_len (s : Spoke) : Nat :=
  s.job_list.length

/-- Spoke::get_bounds. -/
def Spoke.get_bounds (s : Spoke) : BoundingSpokeTime :=
  s.bst

/-- Spoke::add_job - reject when expired or out of bounds (handing the job
back), otherwise index the body, record a nonzero external id, and push the
metadata onto the heap. -/
def Spoke.add_job (now : Nat) (s : Spoke) (job : Job) : Option Job × Spoke :=
  if Spoke.is_expired now s then (some job, s)
  else if s.bst.start_time_ms ≤ job.job_metadata.trigger_at_ms &&
      job.job_metadata.trigger_at_ms < s.bst.end_time_ms then
    let jm := job.job_metadata
    (none,
      { s with
        job_iid_map := insertA s.job_iid_map jm.internal_id job.body
        job_eid_map :=
          if jm.external_id ≠ 0 then
            insertA s.job_eid_map jm.external_id jm.internal_id
          else s.job_eid_map
        job_list := jm :: s.job_list })
  else (some job, s)

/-- BinaryHeap pop for the max-heap over JobMetadata.cmp: extract the first
element of least trigger time; ties go to the earlier list position. -/
def popMin : List JobMetadata → Option (JobMetadata × List JobMetadata)
  | [] => none
  | jm :: rest =>
    match popMin rest with
    | none => some (jm, [])
    | some (jm', rest') =>
      if jm.trigger_at_ms ≤ jm'.trigger_at_ms then some (jm, rest)
      else some (jm', jm :: rest')

/-- One round of Spoke::walk, fueled to bound the loop: peek the heap top,
stop if it is not ready, otherwise pop it, drop its external id, and emit a
job when the body is still indexed (lazy deletion discards it otherwise). -/
def Spoke.walkAux (now : Nat) : Nat → Spoke → List Job × Spoke
  | 0, s => ([], s)
  | fuel + 1, s =>
    match popMin s.job_list with
    | none => ([], s)
    | some (jm, rest) =>
      if JobMetadata.is_ready now jm then
        let e := removeA s.job_eid_map jm.external_id
        let i := removeA s.job_iid_map jm.internal_id
        let s' : Spoke :=
          { s with job_eid_map := e.2, job_iid_map := i.2, job_list := rest }
        match i.1 with
        | some b =>
          let r := Spoke.walkAux now fuel s'
          (⟨jm, b⟩ :: r.1, r.2)
        | none => Spoke.walkAux now fuel s'
      else ([], s)

/-- Spoke::walk - drain every ready job in trigger order. -/
def Spoke.walk (now : Nat) (s : Spoke) : List Job × Spoke :=
  Spoke.walkAux now s.job_list.length s

/-- Spoke::cancel_job - the result is none for the panic on an all-zero id;
otherwise some (flag, spoke) where the flag reports whether a body was
removed.  The heap entry is never touched (lazy deletion). -/
def Spoke.cancel_job (s : Spoke) (jm : JobMetadata) : Option (Bool × Spoke) :=
  if jm.external_id = 0 then
    if jm.internal_id = 0 then none
    else
      let r := removeA s.job_iid_map jm.internal_id
      match r.1 with
      | some _ => some (true, { s with job_iid_map := r.2 })
      | none => some (false, { s with job_iid_map := r.2 })
  else
    let r := removeA s.job_eid_map jm.external_id
    match r.1 with
    | some iid =>
      let r2 := removeA s.job_iid_map iid
      match r2.1 with
      | some _ => some (true, { s with job_eid_map := r.2, job_iid_map := r2.2 })
      | none => some (false, { s with job_eid_map := r.2, job_iid_map := r2.2 })
    | none => some (false, { s with job_eid_map := r.2 })

/-- BTreeMap insert for the Spoke map: the entry list is kept sorted
strictly ascending in BoundingSpokeTime.cmp (the reversed comparison), and
inserting an existing key replaces its value. -/
def btreeInsert : List (BoundingSpokeTime × Spoke) → BoundingSpokeTime → Spoke →
    List (BoundingSpokeTime × Spoke)
  | [], k, v => [(k, v)]
  | (k', v') :: rest, k, v =>
    match BoundingSpokeTime.cmp k k' with
    | Ordering.lt => (k, v) :: (k', v') :: rest
    | Ordering.eq => (k, v) :: rest
    | Ordering.gt => (k', v') :: btreeInsert rest k v

/-- BTreeMap remove by key, returning the removed value when present. -/
def btreeRemove : List (BoundingSpokeTime × Spoke) → BoundingSpokeTime →
    Option Spoke × List (BoundingSpokeTime × Spoke)
  | [], _ => (none, [])
  | (k', v') :: rest, k =>
    if k' = k then (some v', rest)
    else
      let r := btreeRemove rest k
      (r.1, (k', v') :: r.2)

/-- Largest value of u64, the end bound of the past Spoke. -/
def U64_MAX : Nat := 18446744073709551615

/-- hub::Hub - configured spoke width, the ordered Spoke map, and the
always-present past Spoke. -/
structure Hub where
  spoke_duration_ms : Nat
  bst_spoke_map : List (BoundingSpokeTime × Spoke)
  past_spoke : Spoke
deriving DecidableEq, Repr

/-- Hub::new - empty map, past Spoke spanning 0 to u64 max. -/
def Hub.new (spoke_duration_ms : Nat) : Hub :=
  ⟨spoke_duration_ms, [], Spoke.new 0 U64_MAX⟩

/-- Hub::add_spoke - key the Spoke by its own bounds. -/
def Hub.add_spoke (h : Hub) (s : Spoke) : Hub :=
  { h with bst_spoke_map := btreeInsert h.bst_spoke_map (Spoke.get_bounds s) s }

/-- Hub::job_bounding_spoke_time - the hypothetical owning interval of a
job, starting at the floored trigger (hard-coded divisor 10). -/
def Hub.job_bounding_spoke_time (job : Job) (spoke_duration_ms : Nat) :
    BoundingSpokeTime :=
  let spoke_start := floor_ms_from_epoch job.job_metadata.trigger_at_ms
  BoundingSpokeTime.new spoke_start (spoke_start + spoke_duration_ms)

/-- Body of Hub::walk's iteration: walk every Spoke of the leading run of
ready Spokes in map order, keeping each (mutated) Spoke in the map, and
stop at the first Spoke that is not ready. -/
def Hub.walkSpokes (now : Nat) : List (BoundingSpokeTime × Spoke) →
    List Job × List (BoundingSpokeTime × Spoke)
  | [] => ([], [])
  | (k, s) :: rest =>
    if Spoke.is_ready now s then
      let w := Spoke.walk now s
      let r := Hub.walkSpokes now rest
      (w.1 ++ r.1, (k, w.2) :: r.2)
    else ([], (k, s) :: rest)

/-- The prune predicate of Hub::prune_spokes: expired with empty heap. -/
def prunable (now : Nat) (e : BoundingSpokeTime × Spoke) : Bool :=
  Spoke.is_expired now e.2 && Spoke.pending_job_len e.2 == 0

/-- Removal loop of Hub::prune_spokes: remove each listed key, counting the
removals that found an entry. -/
def removeKeys : List (BoundingSpokeTime × Spoke) → List BoundingSpokeTime →
    Nat × List (BoundingSpokeTime × Spoke)
  | m, [] => (0, m)
  | m, k :: ks =>
    let r := btreeRemove m k
    let rec' := removeKeys r.2 ks
    (match r.1 with
     | some _ => rec'.1 + 1
     | none => rec'.1, rec'.2)

/-- Hub::prune_spokes - collect the bounds of the leading run of prunable
Spokes (values' own bounds) and remove those keys, returning the count. -/
def Hub.prune_spokes (now : Nat) (h : Hub) : Nat × Hub :=
  let toRemove :=
    (h.bst_spoke_map.takeWhile (prunable now)).map (fun e => Spoke.get_bounds e.2)
  let r := removeKeys h.bst_spoke_map toRemove
  (r.1, { h with bst_spoke_map := r.2 })

/-- Hub::walk - drain the ready prefix of the Spoke map, then prune. -/
def Hub.walk (now : Nat) (h : Hub) : List Job × Hub :=
  let w := Hub.walkSpokes now h.bst_spoke_map
  let p := Hub.prune_spokes now { h with bst_spoke_map := w.2 }
  (w.1, p.2)

/-- Hub::walk_jobs - walk the past Spoke first, then the regular map. -/
def Hub.walk_jobs (now : Nat) (h : Hub) : List Job × Hub :=
  let pw := Spoke.walk now h.past_spoke
  let hw := Hub.walk now { h with past_spoke := pw.2 }
  (pw.1 ++ hw.1, hw.2)

/-- Candidate search of Hub::add_job_to_spokes: skip every entry whose key
is below the job's bounds in the map's own (reversed) order, then offer the
job to the next entry, mutating that Spoke in place. -/
def Hub.tryAddToCandidate (now : Nat) (jbst : BoundingSpokeTime) (job : Job) :
    List (BoundingSpokeTime × Spoke) →
    Option Job × List (BoundingSpokeTime × Spoke)
  | [] => (some job, [])
  | (k, s) :: rest =>
    if BoundingSpokeTime.cmp k jbst = Ordering.lt then
      let r := Hub.tryAddToCandidate now jbst job rest
      (r.1, (k, s) :: r.2)
    else
      let a := Spoke.add_job now s job
      (a.1, (k, a.2) :: rest)

/-- Hub::add_job_to_spokes, fueled: offer the job to the candidate Spoke;
on rejection create the Spoke for the job's computed bounds and recurse.
The result none means the fuel ran out (the source recursion would still
be running); some h is the hub after the job was accepted. -/
def Hub.add_job_to_spokes (now : Nat) : Nat → Hub → Job → Option Hub
  | 0, _, _ => none
  | fuel + 1, h, job =>
    let jbst := Hub.job_bounding_spoke_time job h.spoke_duration_ms
    let r := Hub.tryAddToCandidate now jbst job h.bst_spoke_map
    match r.1 with
    | none => some { h with bst_spoke_map := r.2 }
    | some j =>
      Hub.add_job_to_spokes now fuel
        (Hub.add_spoke { h with bst_spoke_map := r.2 } (Spoke.new_from_bounds jbst)) j

/-- Hub::maybe_add_job_to_past: a job strictly in the past goes to the past
Spoke (outer none models the panic if that Spoke refuses); otherwise the
job is handed back. -/
def Hub.maybe_add_job_to_past (now : Nat) (h : Hub) (job : Job) :
    Option (Option Job × Hub) :=
  if job.job_metadata.trigger_at_ms < now then
    let a := Spoke.add_job now h.past_spoke job
    match a.1 with
    | some _ => none
    | none => some (none, { h with past_spoke := a.2 })
  else some (some job, h)

/-- Hub::add_job - try the past Spoke, then route to the regular Spokes.
none models a panic or exhausted fuel. -/
def Hub.add_job (fuel now : Nat) (h : Hub) (job : Job) : Option Hub :=
  match Hub.maybe_add_job_to_past now h job with
  | none => none
  | some (none, h') => some h'
  | some (some j, h') => Hub.add_job_to_spokes now fuel h' j

/-- Adjacent non-decrease of trigger times along a drained job list. -/
def triggersMono : List Job → Bool
  | [] => true
  | [_] => true
  | a :: b :: rest =>
    decide (a.job_metadata.trigger_at_ms ≤ b.job_metadata.trigger_at_ms) &&
      triggersMono (b :: rest)

/-- Sortedness of the Spoke map: entries pairwise ascending in the key
comparison, which is also the order the model iterates entries in. -/
def keysSorted (m : List (BoundingSpokeTime × Spoke)) : Prop :=
  List.Pairwise
    (fun a b => BoundingSpokeTime.cmp a.1 b.1 = Ordering.lt) m

/-- Job with trigger 5 used for the drain-completeness evaluation. -/
def jobC1 : Job := ⟨⟨1, 1, 5⟩, ⟨"a"⟩⟩

/-- Jobs for the drain-ordering evaluation. -/
def jobC2a : Job := ⟨⟨1, 0, 5⟩, ⟨"a"⟩⟩

/-- Second job (enqueued into the past Spoke) for the ordering evaluation. -/
def jobC2b : Job := ⟨⟨2, 0, 8⟩, ⟨"b"⟩⟩

/-- Job with trigger 17 that the width-5 wheel can never place. -/
def jobC4 : Job := ⟨⟨1, 1, 17⟩, ⟨"x"⟩⟩

/-- The hub state the width-5 routing loop keeps reproducing: one empty
Spoke on the bucket 10..15 that cannot contain trigger 17. -/
def hubLoopC4 : Hub :=
  ⟨5, [(⟨10, 15⟩, Spoke.new_from_bounds ⟨10, 15⟩)], Spoke.new 0 U64_MAX⟩

/-- Two empty spokes, the earlier one expired at time 15. -/
def hubC6 : Hub :=
  Hub.add_spoke (Hub.add_spoke (Hub.new 10) (Spoke.new 0 10)) (Spoke.new 20 10)

/-- A spoke holding one job, used for the cancel evaluations. -/
def spokeC7 : Spoke :=
  (Spoke.add_job 0 (Spoke.new 0 100) ⟨⟨1, 1, 5⟩, ⟨"x"⟩⟩).2

/-- The spoke left after the successful cancel on spokeC7: both indices
empty, but the heap entry still present. -/
def spokeC7c : Spoke := ⟨⟨0, 100⟩, [], [], [⟨1, 1, 5⟩]⟩

theorem lookupA_eq_none_of_not_mem {α : Type} :
    ∀ (m : List (Nat × α)) (k : Nat), k ∉ keysA m → lookupA m k = none := by
  intro m
  induction m with
  | nil => intro k _; rfl
  | cons hd tl ih =>
    intro k hk
    simp [keysA] at hk
    have h1 : hd.1 ≠ k := fun he => hk.1 he.symm
    simp [lookupA, h1]
    exact ih k (by simp [keysA]; exact hk.2)

theorem removeA_eq_of_not_mem {α : Type} :
    ∀ (m : List (Nat × α)) (k : Nat), k ∉ keysA m → removeA m k = (none, m) := by
  intro m
  induction m with
  | nil => intro k _; rfl
  | cons hd tl ih =>
    intro k hk
    simp [keysA] at hk
    have h1 : hd.1 ≠ k := fun he => hk.1 he.symm
    have h2 := ih k (by simp [keysA]; exact hk.2)
    simp [removeA, h1, h2]

theorem removeA_eq_some_decomp {α : Type} :
    ∀ (m : List (Nat × α)) (k : Nat) (v : α) (m' : List (Nat × α)),
      removeA m k = (some v, m') →
      ∃ l1 l2, m = l1 ++ (k, v) :: l2 ∧ m' = l1 ++ l2 ∧ k ∉ keysA l1 := by
  intro m
  induction m with
  | nil => intro k v m' h; exact absurd (congrArg Prod.fst h) (by simp [removeA])
  | cons hd tl ih =>
    intro k v m' h
    by_cases hk : hd.1 = k
    · refine ⟨[], tl, ?_, ?_, by simp [keysA]⟩
      · have h1 : (some hd.2, tl) = (some v, m') := by
          rw [← h]; simp [removeA, hk]
        have hv : hd.2 = v := by
          have := congrArg Prod.fst h1; simpa using this
        simp [← hv, ← hk]
      · have h1 : (some hd.2, tl) = (some v, m') := by
          rw [← h]; simp [removeA, hk]
        have := congrArg Prod.snd h1; simpa using this.symm
    · have h1 : ((removeA tl k).1, hd :: (removeA tl k).2) = (some v, m') := by
        rw [← h]; simp [removeA, hk]
      have hfst : (removeA tl k).1 = some v := by
        have := congrArg Prod.fst h1; simpa using this
      have hsnd : hd :: (removeA tl k).2 = m' := by
        have := congrArg Prod.snd h1; simpa using this
      have hpair : removeA tl k = (some v, (removeA tl k).2) := by
        rw [← hfst]
      rcases ih k v (removeA tl k).2 hpair with ⟨l1, l2, he1, he2, he3⟩
      refine ⟨hd :: l1, l2, by simp [he1], by simp [← hsnd, he2], ?_⟩
      simp [keysA] at he3 ⊢
      exact ⟨fun he => hk he.symm, he3⟩

theorem removeA_length {α : Type} (m : List (Nat × α)) (k : Nat) (v : α)
    (m' : List (Nat × α)) (h : removeA m k = (some v, m')) :
    m'.length + 1 = m.length := by
  rcases removeA_eq_some_decomp m k v m' h with ⟨l1, l2, he1, he2, _⟩
  subst he1; subst he2
  simp
  omega

theorem removeA_some_lookup_none {α : Type} (m : List (Nat × α)) (k : Nat) (v : α)
    (m' : List (Nat × α)) (hnd : (keysA m).Nodup) (h : removeA m k = (some v, m')) :
    lookupA m' k = none := by
  rcases removeA_eq_some_decomp m k v m' h with ⟨l1, l2, he1, he2, _⟩
  subst he1; subst he2
  apply lookupA_eq_none_of_not_mem
  have hnd' : (keysA l1 ++ k :: keysA l2).Nodup := by
    simpa [keysA] using hnd
  have hkeys : keysA (l1 ++ l2) = keysA l1 ++ keysA l2 := by
    simp [keysA]
  rw [hkeys]
  rw [List.nodup_append] at hnd'
  rcases hnd' with ⟨_, hnd2, hdisj⟩
  rw [List.mem_append]
  rintro (hk1 | hk2)
  · exact hdisj hk1 (List.mem_cons_self _ _)
  · exact (List.nodup_cons.mp hnd2).1 hk2

theorem removeA_insertA_fst {α : Type} :
    ∀ (m : List (Nat × α)) (k : Nat) (v : α),
      (removeA (insertA m k v) k).1 = some v := by
  intro m
  induction m with
  | nil => intro k v; simp [insertA, removeA]
  | cons hd tl ih =>
    intro k v
    by_cases hk : hd.1 = k
    · simp [insertA, hk, removeA]
    · simp [insertA, hk, removeA, ih]

/-! Heap-pop lemmas: popMin yields an element of the list that is minimal
in trigger time, and the remainder is drawn from the list. -/

theorem popMin_eq_none_iff : ∀ l : List JobMetadata, popMin l = none ↔ l = [] := by
  intro l
  cases l with
  | nil => simp [popMin]
  | cons hd tl =>
    simp only [popMin]
    cases h : popMin tl with
    | none => simp
    | some p => cases p with
      | mk jm' rest' =>
        by_cases hle : hd.trigger_at_ms ≤ jm'.trigger_at_ms <;> simp [hle]

theorem popMin_mem : ∀ (l : List JobMetadata) (jm : JobMetadata)
    (rest : List JobMetadata), popMin l = some (jm, rest) → jm ∈ l := by
  intro l
  induction l with
  | nil => intro jm rest h; simp [popMin] at h
  | cons hd tl ih =>
    intro jm rest h
    simp only [popMin] at h
    cases hrec : popMin tl with
    | none =>
      rw [hrec] at h
      simp at h
      simp [h.1]
    | some p =>
      cases p with
      | mk jm' rest' =>
        rw [hrec] at h
        by_cases hle : hd.trigger_at_ms ≤ jm'.trigger_at_ms
        · simp [hle] at h
          simp [h.1]
        · simp [hle] at h
          exact List.mem_cons_of_mem _ (h.1 ▸ ih jm' rest' hrec)

theorem popMin_min : ∀ (l : List JobMetadata) (jm : JobMetadata)
    (rest : List JobMetadata), popMin l = some (jm, rest) →
    ∀ x ∈ l, jm.trigger_at_ms ≤ x.trigger_at_ms := by
  intro l
  induction l with
  | nil => intro jm rest h; simp [popMin] at h
  | cons hd tl ih =>
    intro jm rest h x hx
    simp only [popMin] at h
    cases hrec : popMin tl with
    | none =>
      rw [hrec] at h
      simp at h
      have htl : tl = [] := (popMin_eq_none_iff tl).mp hrec
      subst htl
      simp at hx
      simp [h.1, hx]
    | some p =>
      cases p with
      | mk jm' rest' =>
        rw [hrec] at h
        by_cases hle : hd.trigger_at_ms ≤ jm'.trigger_at_ms
        · simp [hle] at h
          rcases List.mem_cons.mp hx with hx | hx
          · simp [h.1, hx]
          · exact h.1 ▸ le_trans hle (ih jm' rest' hrec x hx)
        · simp [hle] at h
          rcases List.mem_cons.mp hx with hx | hx
          · exact h.1 ▸ hx ▸ le_of_lt (Nat.lt_of_not_le hle)
          · exact h.1 ▸ ih jm' rest' hrec x hx

theorem popMin_rest_mem : ∀ (l : List JobMetadata) (jm : JobMetadata)
    (rest : List JobMetadata), popMin l = some (jm, rest) →
    ∀ x ∈ rest, x ∈ l := by
  intro l
  induction l with
  | nil => intro jm rest h; simp [popMin] at h
  | cons hd tl ih =>
    intro jm rest h x hx
    simp only [popMin] at h
    cases hrec : popMin tl with
    | none =>
      rw [hrec] at h
      simp at h
      rw [h.2] at hx
      simp at hx
    | some p =>
      cases p with
      | mk jm' rest' =>
        rw [hrec] at h
        by_cases hle : hd.trigger_at_ms ≤ jm'.trigger_at_ms
        · simp [hle] at h
          exact List.mem_cons_of_mem _ (h.2 ▸ hx)
        · simp [hle] at h
          rw [← h.2] at hx
          rcases List.mem_cons.mp hx with hx | hx
          · simp [hx]
          · exact List.mem_cons_of_mem _ (ih jm' rest' hrec x hx)

theorem walkAux_mem (now : Nat) : ∀ (fuel : Nat) (s : Spoke) (j : Job),
    j ∈ (Spoke.walkAux now fuel s).1 → j.job_metadata ∈ s.job_list := by
  intro fuel
  induction fuel with
  | zero => intro s j hj; simp [Spoke.walkAux] at hj
  | succ n ih =>
    intro s j hj
    simp only [Spoke.walkAux] at hj
    cases hpop : popMin s.job_list with
    | none => rw [hpop] at hj; simp at hj
    | some p =>
      cases p with
      | mk jm rest =>
        rw [hpop] at hj
        by_cases hready : JobMetadata.is_ready now jm
        · simp only [hready, if_true] at hj
          cases hbody : (removeA s.job_iid_map jm.internal_id).1 with
          | some b =>
            rw [hbody] at hj
            simp at hj
            rcases hj with hj | hj
            · rw [hj]
              exact popMin_mem _ _ _ hpop
            · have := ih _ j hj
              simp at this
              exact popMin_rest_mem _ _ _ hpop _ this
          | none =>
            rw [hbody] at hj
            have := ih _ j hj
            simp at this
            exact popMin_rest_mem _ _ _ hpop _ this
        · simp only [hready, if_false] at hj
          simp at hj

theorem triggersMono_cons (a : Job) (l : List Job)
    (hle : ∀ j ∈ l, a.job_metadata.trigger_at_ms ≤ j.job_metadata.trigger_at_ms)
    (hl : triggersMono l = true) : triggersMono (a :: l) = true := by
  cases l with
  | nil => rfl
  | cons b rest =>
    simp only [triggersMono, Bool.and_eq_true, decide_eq_true_eq]
    exact ⟨hle b (List.mem_cons_self _ _), hl⟩

theorem walkAux_mono (now : Nat) : ∀ (fuel : Nat) (s : Spoke),
    triggersMono (Spoke.walkAux now fuel s).1 = true := by
  intro fuel
  induction fuel with
  | zero => intro s; rfl
  | succ n ih =>
    intro s
    simp only [Spoke.walkAux]
    cases hpop : popMin s.job_list with
    | none => rfl
    | some p =>
      cases p with
      | mk jm rest =>
        by_cases hready : JobMetadata.is_ready now jm
        · simp only [hready, if_true]
          cases hbody : (removeA s.job_iid_map jm.internal_id).1 with
          | some b =>
            simp only
            apply triggersMono_cons
            · intro j hj
              have hmem := walkAux_mem now n _ j hj
              simp at hmem
              have : j.job_metadata ∈ s.job_list :=
                popMin_rest_mem _ _ _ hpop _ hmem
              exact popMin_min _ _ _ hpop _ this
            · exact ih _
          | none => exact ih _
        · simp only [hready, if_false]
          rfl

theorem walk_mono (now : Nat) (s : Spoke) :
    triggersMono (Spoke.walk now s).1 = true :=
  walkAux_mono now s.job_list.length s

theorem walkSpokes_fst (now : Nat) : ∀ m : List (BoundingSpokeTime × Spoke),
    (Hub.walkSpokes now m).1 =
      ((m.takeWhile (fun e => Spoke.is_ready now e.2)).map
        (fun e => (Spoke.walk now e.2).1)).flatten := by
  intro m
  induction m with
  | nil => rfl
  | cons hd tl ih =>
    cases hd with
    | mk k s =>
      by_cases hr : Spoke.is_ready now s
      · simp only [Hub.walkSpokes, hr, if_true, List.takeWhile]
        simp [hr, ih]
      · simp only [Hub.walkSpokes, hr, if_false, List.takeWhile]
        simp [hr]

/-! Comparison lemmas for the reversed interval order. -/

theorem bst_cmp_eq_iff (a b : BoundingSpokeTime) :
    BoundingSpokeTime.cmp a b = Ordering.eq ↔ a = b := by
  cases a with
  | mk as ae =>
    cases b with
    | mk bs be =>
      simp only [BoundingSpokeTime.cmp]
      rcases Nat.lt_trichotomy as bs with h | h | h
      · rw [(Nat.compare_eq_lt).mpr h]
        simp [Ordering.then, Ordering.swap]
        omega
      · subst h
        rw [(Nat.compare_eq_eq).mpr rfl]
        rcases Nat.lt_trichotomy ae be with h2 | h2 | h2
        · rw [(Nat.compare_eq_lt).mpr h2]
          simp [Ordering.then, Ordering.swap]
          omega
        · subst h2
          rw [(Nat.compare_eq_eq).mpr rfl]
          simp [Ordering.then, Ordering.swap]
        · rw [(Nat.compare_eq_gt).mpr h2]
          simp [Ordering.then, Ordering.swap]
          omega
      · rw [(Nat.compare_eq_gt).mpr h]
        simp [Ordering.then, Ordering.swap]
        omega

theorem bst_cmp_lt_iff (a b : BoundingSpokeTime) :
    BoundingSpokeTime.cmp a b = Ordering.lt ↔
      (b.start_time_ms < a.start_time_ms ∨
        (a.start_time_ms = b.start_time_ms ∧ b.end_time_ms < a.end_time_ms)) := by
  cases a with
  | mk as ae =>
    cases b with
    | mk bs be =>
      simp only [BoundingSpokeTime.cmp]
      rcases Nat.lt_trichotomy as bs with h | h | h
      · rw [(Nat.compare_eq_lt).mpr h]
        simp [Ordering.then, Ordering.swap]
        omega
      · subst h
        rw [(Nat.compare_eq_eq).mpr rfl]
        rcases Nat.lt_trichotomy ae be with h2 | h2 | h2
        · rw [(Nat.compare_eq_lt).mpr h2]
          simp [Ordering.then, Ordering.swap]
          omega
        · subst h2
          rw [(Nat.compare_eq_eq).mpr rfl]
          simp [Ordering.then, Ordering.swap]
        · rw [(Nat.compare_eq_gt).mpr h2]
          simp [Ordering.then, Ordering.swap]
          omega
      · rw [(Nat.compare_eq_gt).mpr h]
        simp [Ordering.then, Ordering.swap]
        omega

theorem bst_cmp_gt_iff (a b : BoundingSpokeTime) :
    BoundingSpokeTime.cmp a b = Ordering.gt ↔
      BoundingSpokeTime.cmp b a = Ordering.lt := by
  cases a with
  | mk as ae =>
    cases b with
    | mk bs be =>
      simp only [BoundingSpokeTime.cmp]
      rcases Nat.lt_trichotomy as bs with h | h | h
      · rw [(Nat.compare_eq_lt).mpr h, (Nat.compare_eq_gt).mpr h]
        simp [Ordering.then, Ordering.swap]
      · subst h
        rw [(Nat.compare_eq_eq).mpr rfl]
        rcases Nat.lt_trichotomy ae be with h2 | h2 | h2
        · rw [(Nat.compare_eq_lt).mpr h2, (Nat.compare_eq_gt).mpr h2]
          simp [Ordering.then, Ordering.swap]
        · subst h2
          rw [(Nat.compare_eq_eq).mpr rfl]
          simp [Ordering.then, Ordering.swap]
        · rw [(Nat.compare_eq_gt).mpr h2, (Nat.compare_eq_lt).mpr h2]
          simp [Ordering.then, Ordering.swap]
      · rw [(Nat.compare_eq_gt).mpr h, (Nat.compare_eq_lt).mpr h]
        simp [Ordering.then, Ordering.swap]

theorem bst_cmp_lt_trans (a b c : BoundingSpokeTime)
    (h1 : BoundingSpokeTime.cmp a b = Ordering.lt)
    (h2 : BoundingSpokeTime.cmp b c = Ordering.lt) :
    BoundingSpokeTime.cmp a c = Ordering.lt := by
  rw [bst_cmp_lt_iff] at h1 h2 ⊢
  rcases h1 with h1 | ⟨h1a, h1b⟩ <;> rcases h2 with h2 | ⟨h2a, h2b⟩
  · left; omega
  · left; omega
  · left; omega
  · right; omega

theorem btreeInsert_mem : ∀ (m : List (BoundingSpokeTime × Spoke))
    (k : BoundingSpokeTime) (v : Spoke) (x : BoundingSpokeTime × Spoke),
    x ∈ btreeInsert m k v → x = (k, v) ∨ x ∈ m := by
  intro m
  induction m with
  | nil => intro k v x hx; simp [btreeInsert] at hx; simp [hx]
  | cons hd tl ih =>
    intro k v x hx
    cases hd with
    | mk k' v' =>
      simp only [btreeInsert] at hx
      cases hc : BoundingSpokeTime.cmp k k' with
      | lt =>
        rw [hc] at hx
        simp at hx
        rcases hx with hx | hx | hx
        · left; simp [hx]
        · right; simp [hx]
        · right; simp [hx]
      | eq =>
        rw [hc] at hx
        simp at hx
        rcases hx with hx | hx
        · left; simp [hx]
        · right; simp [hx]
      | gt =>
        rw [hc] at hx
        simp at hx
        rcases hx with hx | hx
        · right; simp [hx]
        · rcases ih k v x hx with hx2 | hx2
          · left; exact hx2
          · right; exact List.mem_cons_of_mem _ hx2

theorem btreeInsert_sorted : ∀ (m : List (BoundingSpokeTime × Spoke))
    (k : BoundingSpokeTime) (v : Spoke),
    keysSorted m → keysSorted (btreeInsert m k v) := by
  intro m
  induction m with
  | nil => intro k v _; simp [btreeInsert, keysSorted]
  | cons hd tl ih =>
    intro k v hs
    cases hd with
    | mk k' v' =>
      rcases List.pairwise_cons.mp hs with ⟨hhead, htail⟩
      simp only [btreeInsert]
      cases hc : BoundingSpokeTime.cmp k k' with
      | lt =>
        apply List.pairwise_cons.mpr
        refine ⟨?_, hs⟩
        intro y hy
        rcases List.mem_cons.mp hy with hy | hy
        · rw [hy]; exact hc
        · exact bst_cmp_lt_trans _ _ _ hc (hhead y hy)
      | eq =>
        have hk : k = k' := (bst_cmp_eq_iff k k').mp hc
        apply List.pairwise_cons.mpr
        refine ⟨?_, htail⟩
        intro y hy
        rw [hk]
        exact hhead y hy
      | gt =>
        apply List.pairwise_cons.mpr
        refine ⟨?_, ih k v htail⟩
        intro y hy
        rcases btreeInsert_mem tl k v y hy with hy2 | hy2
        · rw [hy2]
          exact (bst_cmp_gt_iff k k').mp hc
        · exact hhead y hy2

/-! Prune lemmas: removing the collected prefix keys drops exactly the
prunable prefix when every prefix entry is keyed by its Spoke's bounds. -/

theorem removeKeys_leading_run (p : (BoundingSpokeTime × Spoke) → Bool) :
    ∀ m : List (BoundingSpokeTime × Spoke),
      (m.takeWhile p).all (fun e => e.1 == Spoke.get_bounds e.2) = true →
      removeKeys m ((m.takeWhile p).map (fun e => Spoke.get_bounds e.2)) =
        ((m.takeWhile p).length, m.dropWhile p) := by
  intro m
  induction m with
  | nil => intro _; rfl
  | cons hd tl ih =>
    intro hall
    by_cases hp : p hd
    · rw [List.takeWhile_cons_of_pos hp] at hall ⊢
      rw [List.dropWhile_cons_of_pos hp]
      simp only [List.all_cons, Bool.and_eq_true, beq_iff_eq] at hall
      rcases hall with ⟨hkey, hall⟩
      simp only [List.map_cons, removeKeys]
      have hrem : btreeRemove (hd :: tl) (Spoke.get_bounds hd.2) =
          (some hd.2, tl) := by
        simp [btreeRemove, ← hkey]
      rw [hrem]
      simp only
      rw [ih hall]
      simp [List.length_cons]
    · rw [List.takeWhile_cons_of_neg hp]
      rw [List.dropWhile_cons_of_neg hp]
      rfl

theorem not_mem_of_lookupA_none {α : Type} :
    ∀ (m : List (Nat × α)) (k : Nat), lookupA m k = none → k ∉ keysA m := by
  intro m
  induction m with
  | nil => intro k _; simp [keysA]
  | cons hd tl ih =>
    intro k h
    by_cases hk : hd.1 = k
    · simp [lookupA, hk] at h
    · simp [lookupA, hk] at h
      simp [keysA]
      refine ⟨fun he => hk he.symm, ?_⟩
      have := ih k h
      simp [keysA] at this
      exact this

theorem removeA_again {α : Type} (m : List (Nat × α)) (k : Nat) (v : α)
    (m' : List (Nat × α)) (hnd : (keysA m).Nodup) (h : removeA m k = (some v, m')) :
    removeA m' k = (none, m') := by
  apply removeA_eq_of_not_mem
  exact not_mem_of_lookupA_none m' k (removeA_some_lookup_none m k v m' hnd h)

theorem jm_eqb_true_iff (a b : JobMetadata) :
    JobMetadata.eqb a b = true ↔
      (if a.external_id = 0 ∨ b.external_id = 0
       then a.internal_id = b.internal_id
       else a.internal_id = b.internal_id ∨ a.external_id = b.external_id) := by
  by_cases h1 : a.external_id = 0 <;> by_cases h2 : b.external_id = 0 <;>
    simp [JobMetadata.eqb, h1, h2]

/-- C3: the bucket start is computed with the hard-coded divisor 10, not
with the configured spoke width: for trigger 25 and width 7 the code forms
the interval 20..27 although flooring by the width would give bucket start
21.  This confirms the divergence the claim (with the spec) calls a bug. -/
theorem floor_bucket_hardcoded_ten :
    Hub.job_bounding_spoke_time ⟨⟨1, 1, 25⟩, ⟨"b"⟩⟩ 7 = ⟨20, 27⟩ ∧
    floor_to_bucket 25 7 = 21 ∧
    floor_ms_from_epoch 25 ≠ floor_to_bucket 25 7 :=
  ⟨rfl, rfl, by decide⟩

/-- C5 counterexample: the interval 0..10 starts before 10..20, so the
claim says it is less, but the code comparison answers greater (the Ord
implementation reverses the lexicographic comparison). -/
theorem bst_cmp_not_ascending :
    BoundingSpokeTime.cmp ⟨0, 10⟩ ⟨10, 20⟩ = Ordering.gt ∧ (0 : Nat) < 10 :=
  ⟨rfl, by decide⟩

/-- C5 amended: the comparison is descending - a is below b exactly when a
starts later (or starts equal and ends later) - and inserting through
Hub::add_spoke keeps the map sorted in that comparison, which is the order
the map is iterated in. -/
theorem bst_cmp_descending_and_map_sorted :
    (∀ a b : BoundingSpokeTime,
      BoundingSpokeTime.cmp a b = Ordering.lt ↔
        (b.start_time_ms < a.start_time_ms ∨
          (a.start_time_ms = b.start_time_ms ∧ b.end_time_ms < a.end_time_ms))) ∧
    (∀ (h : Hub) (s : Spoke),
      keysSorted h.bst_spoke_map → keysSorted (Hub.add_spoke h s).bst_spoke_map) :=
  ⟨bst_cmp_lt_iff, fun h s hs => btreeInsert_sorted h.bst_spoke_map _ s hs⟩

/-- C5 witness: the descending rule at the intervals 10..20 and 0..10, and
sortedness after one insertion into the empty hub. -/
theorem bst_cmp_descending_witness :
    BoundingSpokeTime.cmp ⟨10, 20⟩ ⟨0, 10⟩ = Ordering.lt ∧
    keysSorted (Hub.add_spoke (Hub.new 10) (Spoke.new 0 10)).bst_spoke_map :=
  ⟨(bst_cmp_descending_and_map_sorted.1 ⟨10, 20⟩ ⟨0, 10⟩).mpr
      (Or.inl (by decide)),
    bst_cmp_descending_and_map_sorted.2 (Hub.new 10) (Spoke.new 0 10)
      List.Pairwise.nil⟩

/-- C9 counterexample: jobs (1,5), (2,5), (2,0) - the first two are equal
through the external id, the second and third through the internal id, yet
the first and third are unequal: equality is not transitive and does not
coincide with identity of the id pairs. -/
theorem job_eq_not_transitive :
    Job.eqb ⟨⟨1, 5, 0⟩, ⟨""⟩⟩ ⟨⟨2, 5, 0⟩, ⟨""⟩⟩ = true ∧
    Job.eqb ⟨⟨2, 5, 0⟩, ⟨""⟩⟩ ⟨⟨2, 0, 0⟩, ⟨""⟩⟩ = true ∧
    Job.eqb ⟨⟨1, 5, 0⟩, ⟨""⟩⟩ ⟨⟨2, 0, 0⟩, ⟨""⟩⟩ = false :=
  ⟨rfl, rfl, rfl⟩

/-- C9 amended: equality compares internal ids when either external id is
zero and otherwise accepts agreement of either id; it ignores trigger
times and bodies, is reflexive and symmetric, but is not transitive. -/
theorem job_eq_disjunctive_rule :
    (∀ a b : Job, Job.eqb a b = true ↔
      (if a.job_metadata.external_id = 0 ∨ b.job_metadata.external_id = 0
       then a.job_metadata.internal_id = b.job_metadata.internal_id
       else a.job_metadata.internal_id = b.job_metadata.internal_id ∨
         a.job_metadata.external_id = b.job_metadata.external_id)) ∧
    (∀ a : Job, Job.eqb a a = true) ∧
    (∀ a b : Job, Job.eqb a b = Job.eqb b a) ∧
    (∀ (m1 m2 : JobMetadata) (t1 t2 : Nat) (b1 b2 b3 b4 : JobBody),
      Job.eqb ⟨⟨m1.internal_id, m1.external_id, t1⟩, b3⟩
          ⟨⟨m2.internal_id, m2.external_id, t2⟩, b4⟩ =
        Job.eqb ⟨m1, b1⟩ ⟨m2, b2⟩) ∧
    ¬(∀ a b c : Job,
        Job.eqb a b = true → Job.eqb b c = true → Job.eqb a c = true) := by
  refine ⟨?_, ?_, ?_, ?_, ?_⟩
  · intro a b
    exact jm_eqb_true_iff a.job_metadata b.job_metadata
  · intro a
    rw [Job.eqb, jm_eqb_true_iff]
    split <;> simp
  · intro a b
    rw [Bool.eq_iff_iff]
    rw [Job.eqb, Job.eqb, jm_eqb_true_iff, jm_eqb_true_iff]
    by_cases h1 : a.job_metadata.external_id = 0 <;>
      by_cases h2 : b.job_metadata.external_id = 0 <;>
        simp [h1, h2] <;> constructor <;>
          (intro h3; first | exact h3.symm | exact Or.symm h3 |
            rcases h3 with h3 | h3 <;> simp [h3])
  · intro m1 m2 t1 t2 b1 b2 b3 b4
    rfl
  · intro h
    have := h ⟨⟨1, 5, 0⟩, ⟨""⟩⟩ ⟨⟨2, 5, 0⟩, ⟨""⟩⟩ ⟨⟨2, 0, 0⟩, ⟨""⟩⟩ rfl rfl
    exact absurd this (by decide)

/-- C9 witness: reflexivity of the rule applied at a concrete job. -/
theorem job_eq_disjunctive_rule_witness :
    Job.eqb ⟨⟨3, 4, 9⟩, ⟨"w"⟩⟩ ⟨⟨3, 4, 9⟩, ⟨"w"⟩⟩ = true :=
  job_eq_disjunctive_rule.2.1 ⟨⟨3, 4, 9⟩, ⟨"w"⟩⟩

/-- C10: when Spoke::add_job rejects a job (returns it), the Spoke is left
exactly as it was - heap, body index, and external-id index included - and
the job handed back is the job offered. -/
theorem add_job_reject_preserves_spoke (now : Nat) (s : Spoke) (job j : Job)
    (h : (Spoke.add_job now s job).1 = some j) :
    (Spoke.add_job now s job).2 = s ∧ j = job := by
  by_cases hexp : Spoke.is_expired now s
  · simp [Spoke.add_job, hexp] at h ⊢
    exact h.symm
  · by_cases hb : (s.bst.start_time_ms ≤ job.job_metadata.trigger_at_ms &&
      job.job_metadata.trigger_at_ms < s.bst.end_time_ms) = true
    · simp [Spoke.add_job, hexp, hb] at h
    · simp [Spoke.add_job, hexp, hb] at h ⊢
      exact h.symm

/-- C10 witness: a job beyond the spoke's interval is rejected and the
spoke is returned unchanged. -/
theorem add_job_reject_preserves_spoke_witness :
    (Spoke.add_job 0 (Spoke.new 0 10) ⟨⟨1, 1, 50⟩, ⟨"z"⟩⟩).2 = Spoke.new 0 10 ∧
    (⟨⟨1, 1, 50⟩, ⟨"z"⟩⟩ : Job) = ⟨⟨1, 1, 50⟩, ⟨"z"⟩⟩ :=
  add_job_reject_preserves_spoke 0 (Spoke.new 0 10) ⟨⟨1, 1, 50⟩, ⟨"z"⟩⟩
    ⟨⟨1, 1, 50⟩, ⟨"z"⟩⟩ rfl

/-- C1: drain is incomplete.  The job with trigger 5 is enqueued at time 3
into the Spoke 0..10; draining at time 15 returns nothing and the job
(trigger 5 <= 15) is still in the hub, because walk only visits Spokes
with start <= now < end and the Spoke has expired. -/
theorem walk_jobs_drops_overdue_spoke :
    (Hub.add_job 2 3 (Hub.new 10) jobC1).map (fun h1 =>
      ((Hub.walk_jobs 15 h1).1,
        (Hub.walk_jobs 15 h1).2.bst_spoke_map.map (fun e => e.2.job_list))) =
      some ([], [[⟨1, 1, 5⟩]]) := by
  rfl

/-- C2 counterexample: enqueue trigger 5 at time 3 (regular Spoke 0..10)
and trigger 8 at time 9 (past Spoke); draining at time 9 returns the
triggers in the order 8, 5 - the returned vector is not non-decreasing in
trigger time. -/
theorem walk_jobs_output_not_monotone :
    ((Hub.add_job 2 3 (Hub.new 10) jobC2a).bind (fun h1 =>
        Hub.add_job 2 9 h1 jobC2b)).map (fun h2 =>
      ((Hub.walk_jobs 9 h2).1.map (fun j => j.job_metadata.trigger_at_ms),
        triggersMono (Hub.walk_jobs 9 h2).1)) =
      some ([8, 5], false) := by
  rfl

/-- C2 amended: one drain returns the past Spoke's jobs first, followed by
the drained jobs of the leading run of ready regular Spokes in the map's
own iteration order (which is descending in interval start), and the jobs
of the past Spoke and of each single Spoke are non-decreasing in trigger
time; the concatenated vector as a whole need not be. -/
theorem walk_jobs_block_structure (h : Hub) (now : Nat) :
    (Hub.walk_jobs now h).1 =
      (Spoke.walk now h.past_spoke).1 ++
        ((h.bst_spoke_map.takeWhile (fun e => Spoke.is_ready now e.2)).map
          (fun e => (Spoke.walk now e.2).1)).flatten ∧
    triggersMono (Spoke.walk now h.past_spoke).1 = true ∧
    ((h.bst_spoke_map.takeWhile (fun e => Spoke.is_ready now e.2)).map
      (fun e => (Spoke.walk now e.2).1)).all triggersMono = true := by
  refine ⟨?_, walk_mono now h.past_spoke, ?_⟩
  · simp only [Hub.walk_jobs, Hub.walk]
    rw [walkSpokes_fst]
  · rw [List.all_eq_true]
    intro b hb
    rcases List.mem_map.mp hb with ⟨e, _, he⟩
    rw [← he]
    exact walk_mono now e.2

/-- One routing round at width 5 with trigger 17 reproduces the same hub:
the freshly created Spoke 10..15 (bucket floored by the constant 10) does
not contain 17, so the job is rejected again. -/
theorem add_job_to_spokes_loop_step (n : Nat) :
    Hub.add_job_to_spokes 10 (n + 1) hubLoopC4 jobC4 =
      Hub.add_job_to_spokes 10 n hubLoopC4 jobC4 := by
  rfl

/-- C4: the routing recursion of enqueue does not terminate for width 5
and trigger 17 (at time 10): however much fuel it is given, it never
completes, because the bucket computation floors by the constant 10, so
the created Spoke 10..15 never covers the trigger. -/
theorem add_job_bucket_mismatch_diverges :
    ∀ fuel : Nat, Hub.add_job fuel 10 (Hub.new 5) jobC4 = none := by
  have hloop : ∀ n, Hub.add_job_to_spokes 10 n hubLoopC4 jobC4 = none := by
    intro n
    induction n with
    | zero => rfl
    | succ m ih => rw [add_job_to_spokes_loop_step m]; exact ih
  intro fuel
  cases fuel with
  | zero => rfl
  | succ n =>
    have hstep : Hub.add_job (n + 1) 10 (Hub.new 5) jobC4 =
        Hub.add_job_to_spokes 10 n hubLoopC4 jobC4 := by
      rfl
    rw [hstep]
    exact hloop n

/-- C6 counterexample: at time 15 the map iterates the Spoke 20..30 first
(reversed order), which is not prunable, so prune removes nothing and the
expired, empty Spoke 0..10 survives. -/
theorem prune_spokes_keeps_expired_empty :
    (Hub.prune_spokes 15 hubC6).1 = 0 ∧
    (Hub.prune_spokes 15 hubC6).2.bst_spoke_map.map (fun e =>
        (e.1, Spoke.is_expired 15 e.2, Spoke.pending_job_len e.2)) =
      [(⟨20, 30⟩, false, 0), (⟨0, 10⟩, true, 0)] :=
  ⟨rfl, rfl⟩

/-- C6 amended: prune removes exactly the leading run, in the map's
iteration order, of Spokes that are expired with an empty heap, and
returns their number; Spokes beyond the first non-prunable entry stay even
when expired and empty.  The hypothesis states the map invariant that
every entry of that leading run is keyed by its Spoke's own bounds. -/
theorem prune_spokes_leading_run (now : Nat) (h : Hub)
    (hkb : (h.bst_spoke_map.takeWhile (prunable now)).all
      (fun e => e.1 == Spoke.get_bounds e.2) = true) :
    (Hub.prune_spokes now h).1 =
      (h.bst_spoke_map.takeWhile (prunable now)).length ∧
    (Hub.prune_spokes now h).2.bst_spoke_map =
      h.bst_spoke_map.dropWhile (prunable now) := by
  simp only [Hub.prune_spokes]
  rw [removeKeys_leading_run (prunable now) h.bst_spoke_map hkb]
  exact ⟨rfl, rfl⟩

/-- C6 witness: the prefix characterisation applied to the two-spoke hub
at time 15 (the prunable prefix is empty). -/
theorem prune_spokes_leading_run_witness :
    (Hub.prune_spokes 15 hubC6).1 =
      (hubC6.bst_spoke_map.takeWhile (prunable 15)).length ∧
    (Hub.prune_spokes 15 hubC6).2.bst_spoke_map =
      hubC6.bst_spoke_map.dropWhile (prunable 15) :=
  prune_spokes_leading_run 15 hubC6 rfl

/-- C7 counterexample: after a successful cancel the body index is empty
while pending_job_len still answers 1 - it counts the heap, not the body
index, so it is not smaller than the physical heap size. -/
theorem pending_len_counts_heap_not_bodies :
    (Spoke.cancel_job spokeC7 ⟨1, 1, 0⟩).map (fun r =>
      (r.1, Spoke.pending_job_len r.2, r.2.job_iid_map.length)) =
      some (true, 1, 0) := by
  rfl

/-- C7 amended: pending_job_len is the physical heap length; cancel never
touches the heap, and a successful cancel removes exactly one body-index
entry, so the body index (the logical count) falls below pending_job_len
until the next drain. -/
theorem pending_len_physical :
    (∀ s : Spoke, Spoke.pending_job_len s = s.job_list.length) ∧
    (∀ (s : Spoke) (jm : JobMetadata) (b : Bool) (s' : Spoke),
      Spoke.cancel_job s jm = some (b, s') → s'.job_list = s.job_list) ∧
    (∀ (s : Spoke) (jm : JobMetadata) (s' : Spoke),
      Spoke.cancel_job s jm = some (true, s') →
        s'.job_iid_map.length + 1 = s.job_iid_map.length) := by
  refine ⟨fun s => rfl, ?_, ?_⟩
  · intro s jm b s' h
    simp only [Spoke.cancel_job] at h
    by_cases he : jm.external_id = 0
    · rw [if_pos he] at h
      by_cases hi : jm.internal_id = 0
      · rw [if_pos hi] at h; exact absurd h (by simp)
      · rw [if_neg hi] at h
        cases hr : (removeA s.job_iid_map jm.internal_id).1 with
        | none =>
          rw [hr] at h
          simp only [Option.some.injEq, Prod.mk.injEq] at h
          rw [← h.2]
        | some v =>
          rw [hr] at h
          simp only [Option.some.injEq, Prod.mk.injEq] at h
          rw [← h.2]
    · rw [if_neg he] at h
      cases hr : (removeA s.job_eid_map jm.external_id).1 with
      | none =>
        rw [hr] at h
        simp only [Option.some.injEq, Prod.mk.injEq] at h
        rw [← h.2]
      | some iid0 =>
        rw [hr] at h
        dsimp only at h
        cases hr2 : (removeA s.job_iid_map iid0).1 with
        | none =>
          rw [hr2] at h
          simp only [Option.some.injEq, Prod.mk.injEq] at h
          rw [← h.2]
        | some v =>
          rw [hr2] at h
          simp only [Option.some.injEq, Prod.mk.injEq] at h
          rw [← h.2]
  · intro s jm s' h
    simp only [Spoke.cancel_job] at h
    by_cases he : jm.external_id = 0
    · rw [if_pos he] at h
      by_cases hi : jm.internal_id = 0
      · rw [if_pos hi] at h; exact absurd h (by simp)
      · rw [if_neg hi] at h
        cases hr : (removeA s.job_iid_map jm.internal_id).1 with
        | none =>
          rw [hr] at h
          simp only [Option.some.injEq, Prod.mk.injEq] at h
          exact absurd h.1.symm (by simp)
        | some v =>
          rw [hr] at h
          simp only [Option.some.injEq, Prod.mk.injEq] at h
          rw [← h.2]
          have hpair : removeA s.job_iid_map jm.internal_id =
              (some v, (removeA s.job_iid_map jm.internal_id).2) := by
            rw [← hr]
          exact removeA_length _ _ _ _ hpair
    · rw [if_neg he] at h
      cases hr : (removeA s.job_eid_map jm.external_id).1 with
      | none =>
        rw [hr] at h
        simp only [Option.some.injEq, Prod.mk.injEq] at h
        exact absurd h.1.symm (by simp)
      | some iid0 =>
        rw [hr] at h
        dsimp only at h
        cases hr2 : (removeA s.job_iid_map iid0).1 with
        | none =>
          rw [hr2] at h
          simp only [Option.some.injEq, Prod.mk.injEq] at h
          exact absurd h.1.symm (by simp)
        | some v =>
          rw [hr2] at h
          simp only [Option.some.injEq, Prod.mk.injEq] at h
          rw [← h.2]
          have hpair : removeA s.job_iid_map iid0 =
              (some v, (removeA s.job_iid_map iid0).2) := by
            rw [← hr2]
          exact removeA_length _ _ _ _ hpair

/-- C7 witness: the characterisation applied at the concrete cancelled
spoke - the heap is unchanged and the body index lost one entry. -/
theorem pending_len_physical_witness :
    spokeC7c.job_list = spokeC7.job_list ∧
    spokeC7c.job_iid_map.length + 1 = spokeC7.job_iid_map.length :=
  ⟨pending_len_physical.2.1 spokeC7 ⟨1, 1, 0⟩ true spokeC7c rfl,
    pending_len_physical.2.2 spokeC7 ⟨1, 1, 0⟩ spokeC7c rfl⟩

/-- C8 counterexample: cancelling an id whose internal and external parts
are both zero - an id no Spoke owns - is not a plain false answer: the
code panics (modelled as none). -/
theorem cancel_zero_ids_is_error :
    Spoke.cancel_job (Spoke.new 0 10) ⟨0, 0, 0⟩ = none := by
  rfl

/-- C8 amended: for an id with a nonzero internal or external part, cancel
answers false (and leaves the Spoke unchanged) when the Spoke owns
neither part; after a successful cancel the same cancel answers false
(true exactly once, given well-formed indices); and a job just accepted by
add_job can be cancelled successfully.  An all-zero id panics instead. -/
theorem cancel_semantics_nonzero_ids :
    (∀ (s : Spoke) (jm : JobMetadata),
      (jm.internal_id = 0 → jm.external_id ≠ 0) →
      lookupA s.job_eid_map jm.external_id = none →
      lookupA s.job_iid_map jm.internal_id = none →
      Spoke.cancel_job s jm = some (false, s)) ∧
    (∀ (s : Spoke) (jm : JobMetadata) (s' : Spoke),
      (keysA s.job_eid_map).Nodup → (keysA s.job_iid_map).Nodup →
      Spoke.cancel_job s jm = some (true, s') →
      Spoke.cancel_job s' jm = some (false, s')) ∧
    (∀ (now : Nat) (s : Spoke) (job : Job) (s₁ : Spoke),
      job.job_metadata.internal_id ≠ 0 →
      Spoke.add_job now s job = (none, s₁) →
      (Spoke.cancel_job s₁ job.job_metadata).map Prod.fst = some true) := by
  refine ⟨?_, ?_, ?_⟩
  · intro s jm h0 hle hli
    simp only [Spoke.cancel_job]
    by_cases he : jm.external_id = 0
    · have hi : jm.internal_id ≠ 0 := fun hi => (h0 hi) he
      rw [if_pos he, if_neg hi]
      have hrm := removeA_eq_of_not_mem s.job_iid_map jm.internal_id
        (not_mem_of_lookupA_none _ _ hli)
      rw [hrm]
    · rw [if_neg he]
      have hrm := removeA_eq_of_not_mem s.job_eid_map jm.external_id
        (not_mem_of_lookupA_none _ _ hle)
      rw [hrm]
  · intro s jm s' hnde hndi h
    simp only [Spoke.cancel_job] at h ⊢
    by_cases he : jm.external_id = 0
    · rw [if_pos he] at h ⊢
      by_cases hi : jm.internal_id = 0
      · rw [if_pos hi] at h; exact absurd h (by simp)
      · rw [if_neg hi] at h ⊢
        cases hr : (removeA s.job_iid_map jm.internal_id).1 with
        | none =>
          rw [hr] at h
          simp only [Option.some.injEq, Prod.mk.injEq] at h
          exact absurd h.1.symm (by simp)
        | some v =>
          rw [hr] at h
          simp only [Option.some.injEq, Prod.mk.injEq] at h
          have hpair : removeA s.job_iid_map jm.internal_id =
              (some v, (removeA s.job_iid_map jm.internal_id).2) := by
            rw [← hr]
          have h2 := removeA_again _ _ _ _ hndi hpair
          rw [← h.2]
          rw [show ({ s with
              job_iid_map := (removeA s.job_iid_map jm.internal_id).2 } :
                Spoke).job_iid_map =
              (removeA s.job_iid_map jm.internal_id).2 from rfl, h2]
    · rw [if_neg he] at h ⊢
      cases hr : (removeA s.job_eid_map jm.external_id).1 with
      | none =>
        rw [hr] at h
        simp only [Option.some.injEq, Prod.mk.injEq] at h
        exact absurd h.1.symm (by simp)
      | some iid0 =>
        rw [hr] at h
        dsimp only at h
        cases hr2 : (removeA s.job_iid_map iid0).1 with
        | none =>
          rw [hr2] at h
          simp only [Option.some.injEq, Prod.mk.injEq] at h
          exact absurd h.1.symm (by simp)
        | some v =>
          rw [hr2] at h
          simp only [Option.some.injEq, Prod.mk.injEq] at h
          have hpair : removeA s.job_eid_map jm.external_id =
              (some iid0, (removeA s.job_eid_map jm.external_id).2) := by
            rw [← hr]
          have h2 := removeA_again _ _ _ _ hnde hpair
          rw [← h.2]
          rw [show ({ s with
              job_eid_map := (removeA s.job_eid_map jm.external_id).2,
              job_iid_map := (removeA s.job_iid_map iid0).2 } :
                Spoke).job_eid_map =
              (removeA s.job_eid_map jm.external_id).2 from rfl, h2]
  · intro now s job s₁ hi h
    simp only [Spoke.add_job] at h
    by_cases hexp : Spoke.is_expired now s
    · rw [if_pos hexp] at h
      exact absurd (congrArg Prod.fst h) (by simp)
    · rw [if_neg hexp] at h
      by_cases hb : (s.bst.start_time_ms ≤ job.job_metadata.trigger_at_ms &&
          job.job_metadata.trigger_at_ms < s.bst.end_time_ms) = true
      · rw [if_pos hb] at h
        simp only [Prod.mk.injEq] at h
        rw [← h.2]
        by_cases he : job.job_metadata.external_id = 0
        · simp only [Spoke.cancel_job, if_pos he, if_neg hi]
          rw [removeA_insertA_fst s.job_iid_map
            job.job_metadata.internal_id job.body]
          rfl
        · simp only [Spoke.cancel_job, if_neg he, he, ne_eq,
            not_false_iff, if_true]
          rw [removeA_insertA_fst s.job_eid_map
            job.job_metadata.external_id job.job_metadata.internal_id]
          dsimp only
          rw [removeA_insertA_fst s.job_iid_map
            job.job_metadata.internal_id job.body]
          rfl
      · rw [if_neg hb] at h
        exact absurd (congrArg Prod.fst h) (by simp)

/-- C8 witness: the unknown-id clause at an empty spoke and a nonzero id,
and the enqueue-then-cancel clause at a concrete accepted job. -/
theorem cancel_semantics_nonzero_ids_witness :
    Spoke.cancel_job (Spoke.new 0 10) ⟨1, 2, 3⟩ = some (false, Spoke.new 0 10) ∧
    Spoke.cancel_job spokeC7c ⟨1, 1, 5⟩ = some (false, spokeC7c) ∧
    (Spoke.cancel_job spokeC7 ⟨1, 1, 5⟩).map Prod.fst = some true :=
  ⟨cancel_semantics_nonzero_ids.1 (Spoke.new 0 10) ⟨1, 2, 3⟩
      (by decide) rfl rfl,
    cancel_semantics_nonzero_ids.2.1 spokeC7 ⟨1, 1, 5⟩ spokeC7c
      (by decide) (by decide) rfl,
    cancel_semantics_nonzero_ids.2.2 0 (Spoke.new 0 100) ⟨⟨1, 1, 5⟩, ⟨"x"⟩⟩
      spokeC7 (by decide) rfl⟩
